import Mathlib

/-
Verification development for the archive-extraction tool `runzip`.

The repository extracts ZIP and RAR archives: `zip.rs` / `main.rs` drive a
random-access loop over ZIP entries (`unzip`, `inflate`), `rar.rs` drives a
sequential header-cursor loop (`unrar`), and `utils.rs` post-processes the
extraction root in smart mode (`process_directory`,
`move_dir_contents_to_parent`).

This file gives a shallow embedding of that code.  Paths are modelled as an
absolute-flag plus a list of components, mirroring `std::path::Path`; the
filesystem is an association list from paths to nodes, and every `std::fs`
operation the source calls (`create_dir_all`, `File::create`, `read_dir`,
`rename`, `remove_dir`, `remove_dir_all`, `exists`, `set_permissions`) is
modelled explicitly with its documented POSIX behaviour, including the cases
where `rename(2)` silently replaces an existing destination.  Byte-level
decompression and the encoding table of `encoding_rs` are external
collaborators: an encoding is modelled as an arbitrary decode function
returning the decoded text together with its `had_errors` flag, exactly the
shape `encoding_rs::Encoding::decode` returns.
-/

namespace Runzip

/-- A filesystem path: whether it is absolute plus its normal components.
Mirrors `std::path::Path`: empty and `.` components are dropped by the
component iterator, `..` is kept as an ordinary component (`Path` does not
resolve parent-directory components lexically). -/
structure RPath where
  absolute : Bool
  components : List String
deriving Repr, DecidableEq

/-- Append further components to a path (the non-replacing case of `push`). -/
def RPath.append (p : RPath) (suf : List String) : RPath :=
  ⟨p.absolute, p.components ++ suf⟩

/-- `Path::join` / `PathBuf::push`: joining an absolute path replaces the
base entirely; otherwise the components are appended without normalization. -/
def RPath.join (base p : RPath) : RPath :=
  if p.absolute then p else ⟨base.absolute, base.components ++ p.components⟩

/-- `Path::parent`: `None` for the root directory and the empty path,
otherwise the path with its last component dropped. -/
def RPath.parent? (p : RPath) : Option RPath :=
  if p.components = [] then none else some ⟨p.absolute, p.components.dropLast⟩

/-- Total variant of `parent?` used where the parent is only inspected. -/
def RPath.parentD (p : RPath) : RPath :=
  ⟨p.absolute, p.components.dropLast⟩

/-- `Path::file_name`: the last component, unless it is `..` (or there is
none), in which case `None`. -/
def RPath.fileName? (p : RPath) : Option String :=
  match p.components.getLast? with
  | none => none
  | some c => if c = ".." then none else some c

/-- `Path::with_file_name`: drop the last component and push the new name. -/
def RPath.withFileName (p : RPath) (name : String) : RPath :=
  ⟨p.absolute, p.components.dropLast ++ [name]⟩

/-- Boolean path-prefix test: same absolute flag and component-list prefix. -/
def RPath.isPref (p q : RPath) : Bool :=
  decide (p.absolute = q.absolute) && p.components.isPrefixOf q.components

/-- Split a character list at `/` separators (the payload of
`String.splitOn "/"`), accumulating the current component in reverse. -/
def splitSlashAux : List Char → List Char → List String
  | acc, [] => [String.mk acc.reverse]
  | acc, ch :: rest =>
    if ch = '/' then String.mk acc.reverse :: splitSlashAux [] rest
    else splitSlashAux (ch :: acc) rest

/-- Parse a path string the way `Path::new` exposes it through its component
iterator: absolute iff it starts with a separator; empty and `.` components
are dropped; `..` components are kept. -/
def parsePath (s : String) : RPath :=
  ⟨decide (s.data.head? = some '/'),
   (splitSlashAux [] s.data).filter (fun c => !(c == "") && !(c == "."))⟩

/-- A filesystem node: a directory or a regular file with its byte content.
POSIX permission bits are outside the model (`set_permissions` below is a
no-op on an existing path), as the claims do not concern them. -/
inductive Node where
  | dir
  | file (content : List Nat)
deriving Repr, DecidableEq

/-- The error kinds of `std::io::ErrorKind` the modelled operations produce. -/
inductive IoErr where
  | noEnt
  | notADir
  | isADir
  | notEmpty
  | alreadyExists
  | invalidData
  | invalidInput
deriving Repr, DecidableEq

/-- The filesystem: an association list from paths to nodes. -/
abbrev FS := List (RPath × Node)

/-- First-match association lookup. -/
def FS.lookup : FS → RPath → Option Node
  | [], _ => none
  | e :: rest, p => if e.1 = p then some e.2 else FS.lookup rest p

/-- Keep only the entries whose key satisfies `keep`. -/
def FS.restrict (fs : FS) (keep : RPath → Bool) : FS :=
  fs.filter (fun e => keep e.1)

/-- Insert or overwrite the node at `p`. -/
def FS.set (fs : FS) (p : RPath) (n : Node) : FS :=
  (p, n) :: fs.restrict (fun q => !(decide (q = p)))

/-- The keys recorded in the filesystem. -/
def FS.keys (fs : FS) : List RPath := fs.map Prod.fst

/-- Well-formedness used by the reconciler theorems: each path occurs at most
once in the association list. -/
def FS.Nodup (fs : FS) : Prop := fs.keys.Nodup

/-- The direct children of `p`: recorded keys exactly one component below. -/
def FS.childrenKeys (fs : FS) (p : RPath) : List RPath :=
  fs.keys.filter (fun q =>
    decide (q.absolute = p.absolute) &&
    decide (q.components.length = p.components.length + 1) &&
    p.components.isPrefixOf q.components)

/-- `fs::exists` (also `Path::exists`). -/
def fs_exists (fs : FS) (p : RPath) : Bool := (FS.lookup fs p).isSome

/-- A path that is a directory, or the implicit root / current directory
(empty component list), which always exists. -/
def isDirOrRoot (fs : FS) (p : RPath) : Bool :=
  p.components.isEmpty || decide (FS.lookup fs p = some Node.dir)

/-- `fs::read_dir`: the list of direct children, or an error when the path is
not a directory. -/
def read_dir (fs : FS) (p : RPath) : Except IoErr (List RPath) :=
  match FS.lookup fs p with
  | some Node.dir => .ok (FS.childrenKeys fs p)
  | some (Node.file _) => .error .notADir
  | none => .error .noEnt

/-- Worker for `create_dir_all`: create each missing prefix in turn; an
existing regular file anywhere on the chain is an error. -/
def createDirAllGo (abs : Bool) : FS → List String → List String → Except IoErr FS
  | fs, _, [] => .ok fs
  | fs, done, c :: rest =>
    match FS.lookup fs ⟨abs, done ++ [c]⟩ with
    | some Node.dir => createDirAllGo abs fs (done ++ [c]) rest
    | some (Node.file _) => .error .alreadyExists
    | none => createDirAllGo abs (FS.set fs ⟨abs, done ++ [c]⟩ Node.dir) (done ++ [c]) rest

/-- `fs::create_dir_all`: create the directory and all missing ancestors;
idempotent on existing directories; `create_dir_all("")` is `Ok`. -/
def create_dir_all (fs : FS) (p : RPath) : Except IoErr FS :=
  createDirAllGo p.absolute fs [] p.components

/-- `File::create` followed by `io::copy`/`write_all`: truncating create of a
regular file.  Fails on the empty path, when the parent is missing or not a
directory, or when the path is an existing directory; silently overwrites an
existing regular file. -/
def write_file (fs : FS) (p : RPath) (content : List Nat) : Except IoErr FS :=
  if p.components = [] then .error .noEnt
  else if !(isDirOrRoot fs p.parentD) then .error .noEnt
  else
    match FS.lookup fs p with
    | some Node.dir => .error .isADir
    | _ => .ok (fs.set p (Node.file content))

/-- `fs::set_permissions`: the node model carries no permission bits, so on
an existing path this is the identity; on a missing path it is an error. -/
def set_permissions (fs : FS) (p : RPath) : Except IoErr FS :=
  if fs_exists fs p then .ok fs else .error .noEnt

/-- `fs::remove_dir`: remove an empty directory. -/
def remove_dir (fs : FS) (p : RPath) : Except IoErr FS :=
  match FS.lookup fs p with
  | none => .error .noEnt
  | some (Node.file _) => .error .notADir
  | some Node.dir =>
    if FS.childrenKeys fs p = [] then
      .ok (fs.restrict (fun q => !(decide (q = p))))
    else .error .notEmpty

/-- `fs::remove_dir_all`: recursively delete a directory; errors when the
path does not exist or is a regular file. -/
def remove_dir_all (fs : FS) (p : RPath) : Except IoErr FS :=
  match FS.lookup fs p with
  | none => .error .noEnt
  | some (Node.file _) => .error .notADir
  | some Node.dir => .ok (fs.restrict (fun q => !(p.isPref q)))

/-- Reroot a key from under `src` to under `dst`. -/
def rerootKey (src dst q : RPath) : RPath :=
  dst.append (q.components.drop src.components.length)

/-- The entries under `src`, re-keyed under `dst`. -/
def FS.reroot (fs : FS) (src dst : RPath) : FS :=
  (fs.filter (fun e => src.isPref e.1)).map (fun e => (rerootKey src dst e.1, e.2))

/-- The filesystem after a successful rename: everything under `src` moves
under `dst`; whatever was at `dst` (necessarily a replaceable file or empty
directory) is dropped. -/
def moveTree (fs : FS) (src dst : RPath) : FS :=
  fs.restrict (fun q => !(src.isPref q) && !(dst.isPref q)) ++ fs.reroot src dst

/-- `fs::rename` with the documented `rename(2)` behaviour on Unix: fails if
the source is missing, if the destination lies under the source, if the
destination parent is not a directory, or on a kind mismatch / non-empty
destination directory; otherwise it moves the tree, silently replacing an
existing regular file (file over file) or an existing empty directory
(directory over directory). -/
def rename (fs : FS) (src dst : RPath) : Except IoErr FS :=
  match FS.lookup fs src with
  | none => .error .noEnt
  | some srcNode =>
    if src = dst then .ok fs
    else if src.isPref dst then .error .invalidInput
    else if dst.components = [] then .error .invalidInput
    else if !(isDirOrRoot fs dst.parentD) then .error .noEnt
    else
      match srcNode, FS.lookup fs dst with
      | _, none => .ok (moveTree fs src dst)
      | Node.file _, some (Node.file _) => .ok (moveTree fs src dst)
      | Node.file _, some Node.dir => .error .isADir
      | Node.dir, some (Node.file _) => .error .notADir
      | Node.dir, some Node.dir =>
        if FS.childrenKeys fs dst = [] then .ok (moveTree fs src dst)
        else .error .notEmpty

/-- The error enum of `error.rs` / `main.rs` (`Io`, `Zip`, `Unrar`,
`InvalidPassword`, `EncodingError`); the payloads of the external archive
errors are not modelled. -/
inductive Error where
  | io (e : IoErr)
  | zipErr
  | unrarErr
  | invalidPassword
  | encodingError
deriving Repr, DecidableEq

/-- A character encoding as `encoding_rs` exposes it inside `inflate`: a
decode function from raw bytes to the decoded text together with the
`had_errors` flag.  The label table (`Encoding::for_label`) belongs to the
external library and is resolved before the entry loop. -/
structure Encoding where
  decode : List Nat → String × Bool

/-- Byte string of an ASCII text, for building concrete archive entries. -/
def asciiBytes (s : String) : List Nat := s.data.map Char.toNat

/-- A concrete encoding for concrete runs: bytes below 128 decode as
themselves, any byte of 128 or above sets the `had_errors` flag. -/
def asciiEncoding : Encoding :=
  ⟨fun bs => (String.mk (bs.map Char.ofNat), bs.any (fun b => decide (128 ≤ b)))⟩

/-- One ZIP entry as `inflate` consumes it: the raw (undecoded) name bytes,
the uncompressed content, the optional unix permission bits, and the password
that decrypts the entry when it is encrypted (`none` for a plain entry). -/
structure ZipEntry where
  nameRaw : List Nat
  content : List Nat
  unixMode : Option Nat
  encryptedWith : Option (List Nat)
deriving Repr, DecidableEq

/-- The test `file.name().ends_with('/')` of `inflate`.  `ZipFile::name` is
the lossy-UTF-8 decoding of the raw name bytes; since `/` (byte 47) is ASCII
and never part of a multi-byte UTF-8 sequence, that string ends with `/`
exactly when the raw bytes end with byte 47. -/
def nameEndsWithSlash (raw : List Nat) : Bool :=
  decide (raw.getLast? = some 47)

/-- `inflate` from `zip.rs` lines 89-127 (identical in `main.rs` lines
182-220): decode the raw name under the selected encoding, failing with
`InvalidData` when the decoder reports errors; join the decoded name onto the
destination; then either create the directory chain (name ends in `/`) or
create the parent chain if missing and write the file; finally apply the
entry's unix permissions when present.  Returns the resolved output path. -/
def inflate (file : ZipEntry) (destination : RPath) (encoding : Encoding)
    (fs : FS) : Except IoErr (RPath × FS) :=
  let dec := encoding.decode file.nameRaw
  if dec.2 then .error .invalidData
  else
    let outpath := destination.join (parsePath dec.1)
    let written : Except IoErr FS :=
      if nameEndsWithSlash file.nameRaw then
        create_dir_all fs outpath
      else
        match
          (match outpath.parent? with
           | some p => if !(fs_exists fs p) then create_dir_all fs p else .ok fs
           | none => .ok fs) with
        | .error e => .error e
        | .ok fs₁ => write_file fs₁ outpath file.content
    match written with
    | .error e => .error e
    | .ok fs₂ =>
      match file.unixMode with
      | some _ =>
        match set_permissions fs₂ outpath with
        | .error e => .error e
        | .ok fs₃ => .ok (outpath, fs₃)
      | none => .ok (outpath, fs₂)

/-- The entry access of the loop in `unzip`: `by_index_decrypt` when a
password was supplied (wrong password surfaces as `InvalidPassword`),
`by_index` otherwise (an encrypted entry without a password is a `ZipError`,
"Password required to decrypt file"). -/
def getEntry (e : ZipEntry) (password : Option (List Nat)) : Except Error ZipEntry :=
  match password with
  | some pwd =>
    match e.encryptedWith with
    | some req => if req = pwd then .ok e else .error .invalidPassword
    | none => .ok e
  | none =>
    match e.encryptedWith with
    | some _ => .error .zipErr
    | none => .ok e

/-- The entry loop of `unzip` (`zip.rs` lines 52-85, same shape in
`main.rs`): entries in archive order; the first failure aborts the loop at
once, returning the error together with the filesystem as already written. -/
def unzipLoop (password : Option (List Nat)) (destination : RPath)
    (encoding : Encoding) : List ZipEntry → FS → FS × Option Error
  | [], fs => (fs, none)
  | e :: rest, fs =>
    match getEntry e password with
    | .error err => (fs, some err)
    | .ok e' =>
      match inflate e' destination encoding fs with
      | .error ioe => (fs, some (Error.io ioe))
      | .ok (_, fs') => unzipLoop password destination encoding rest fs'

/-- `unzip` from `zip.rs`: run the loop and, when every entry succeeded,
report `archive.len()` — the total entry count — as the extracted count
(`main.rs` prints the summary line from this value only on success). -/
def unzip (entries : List ZipEntry) (password : Option (List Nat))
    (destination : RPath) (encoding : Encoding) (fs : FS) :
    FS × Except Error Nat :=
  match unzipLoop password destination encoding entries fs with
  | (fs', none) => (fs', .ok entries.length)
  | (fs', some e) => (fs', .error e)

/-- One RAR entry as the header cursor of `rar.rs` presents it: the stored
filename, the `is_file` flag of the header, and the entry data. -/
structure RarEntry where
  filename : String
  is_file : Bool
  data : List Nat
deriving Repr, DecidableEq

/-- One iteration of the `unrar` loop (`rar.rs` lines 19-45): a file header
is read and materialized (`create_dir_all` on the output path's parent, then
`File::create` + `write_all`; the `.unwrap()` panics are modelled as
errors); any other header is skipped and materializes nothing. -/
def rarStep (destination : RPath) (fs : FS) (e : RarEntry) : Except Error FS :=
  if e.is_file then
    let outpath := destination.join (parsePath e.filename)
    match outpath.parent? with
    | none => .error (Error.io .noEnt)
    | some par =>
      match create_dir_all fs par with
      | .error ioe => .error (Error.io ioe)
      | .ok fs₁ =>
        match write_file fs₁ outpath e.data with
        | .error ioe => .error (Error.io ioe)
        | .ok fs₂ => .ok fs₂
  else .ok fs

/-- The header-cursor loop of `unrar` with its `file_count` accumulator:
only file headers are counted; the first failure aborts the run. -/
def unrarLoop (destination : RPath) :
    List RarEntry → FS → Nat → FS × Except Error Nat
  | [], fs, n => (fs, .ok n)
  | e :: rest, fs, n =>
    match rarStep destination fs e with
    | .error err => (fs, .error err)
    | .ok fs' =>
      unrarLoop destination rest fs' (if e.is_file then n + 1 else n)

/-- `unrar` from `rar.rs`: process every header in storage order and report
`file_count`.  Password handling lives in the external
`Archive::with_password` open call and is not part of the loop. -/
def unrar (entries : List RarEntry) (destination : RPath) (fs : FS) :
    FS × Except Error Nat :=
  unrarLoop destination entries fs 0

/-- The collision-handling move the reconciler performs in both branches
(`utils.rs` lines 24-27 and 43-46): with `force` set and the destination
existing, recursively delete it first; then `fs::rename`. -/
def forceMoveStep (fs : FS) (src dst : RPath) (force : Bool) :
    Except IoErr FS :=
  match (if force && fs_exists fs dst then remove_dir_all fs dst else .ok fs) with
  | .error e => .error e
  | .ok fs₁ => rename fs₁ src dst

/-- The move loop of `move_dir_contents_to_parent`: each child is renamed to
`parent_dir.join(file_name)`; `path.file_name().unwrap()` panicking on a
name-less path is modelled as an error. -/
def moveEntries (parent_dir : RPath) (force : Bool) :
    List RPath → FS → Except IoErr FS
  | [], fs => .ok fs
  | p :: rest, fs =>
    match p.components.getLast? with
    | none => .error .noEnt
    | some fname =>
      match forceMoveStep fs p (parent_dir.append [fname]) force with
      | .error e => .error e
      | .ok fs' => moveEntries parent_dir force rest fs'

/-- `move_dir_contents_to_parent` from `utils.rs` lines 34-53: move every
direct child of `dir` up into `dir`'s parent, remove the then-empty `dir`,
and leave the caller's path pointing at the parent. -/
def move_dir_contents_to_parent (fs : FS) (dir : RPath) (force : Bool) :
    Except IoErr (FS × RPath) :=
  match dir.parent? with
  | none => .error .noEnt
  | some parent_dir =>
    match read_dir fs dir with
    | .error e => .error e
    | .ok entries =>
      match moveEntries parent_dir force entries fs with
      | .error e => .error e
      | .ok fs₁ =>
        match remove_dir fs₁ dir with
        | .error e => .error e
        | .ok fs₂ => .ok (fs₂, parent_dir)

/-- `process_directory` from `utils.rs` lines 4-32: if every direct child of
`path` is a directory (vacuously so for an empty root), move the contents up
and delete the root; otherwise rename the root to `zip_name`, with the
`force` collision handling of `forceMoveStep`.  Returns the filesystem and
the path the caller's `&mut PathBuf` holds afterwards. -/
def process_directory (fs : FS) (path : RPath) (zip_name : String)
    (force : Bool) : Except IoErr (FS × RPath) :=
  match read_dir fs path with
  | .error e => .error e
  | .ok entries =>
    if entries.all (fun q => decide (FS.lookup fs q = some Node.dir)) then
      move_dir_contents_to_parent fs path force
    else
      match forceMoveStep fs path (path.withFileName zip_name) force with
      | .error e => .error e
      | .ok fs₁ => .ok (fs₁, path.withFileName zip_name)

/-- The condition `process_directory` branches on, as a standalone
predicate over the recorded children of the root. -/
def containsOnlyDirs (fs : FS) (p : RPath) : Bool :=
  (FS.childrenKeys fs p).all (fun q => decide (FS.lookup fs q = some Node.dir))

/-- `Path::extension` restricted to a single file name: the portion after
the last `.`, unless there is no `.` or the only `.` is leading. -/
def extOf (f : String) : Option String :=
  let rev := f.data.reverse
  let ext := rev.takeWhile (fun c => decide (c ≠ '.'))
  if ext.length = rev.length then none
  else if rev.drop (ext.length + 1) = [] then none
  else some (String.mk ext.reverse)

/-- `Path::file_stem` restricted to a single file name: everything before
the last `.`, or the whole name when there is no extension. -/
def stemOf (f : String) : String :=
  let rev := f.data.reverse
  let ext := rev.takeWhile (fun c => decide (c ≠ '.'))
  if ext.length = rev.length then f
  else if rev.drop (ext.length + 1) = [] then f
  else String.mk ((rev.drop (ext.length + 1)).reverse)

/-- `Path::extension` of a whole path: the extension of its file name. -/
def file_extension (p : RPath) : Option String :=
  match p.fileName? with
  | none => none
  | some f => extOf f

/-- The two archive readers the orchestrator can select. -/
inductive ArchiveFormat where
  | rar
  | zip
deriving Repr, DecidableEq

/-- Modelled from the spec: the extension dispatch of `main` is not present
in the `src/` snapshot (its `main.rs` is the earlier ZIP-only version; only
the callees `zip::unzip` and `rar::unrar` are present).  Per the spec,
format is selected by inspecting the archive path's file extension: `.rar`
selects the RAR variant, everything else the ZIP variant; `Path::extension`
supplies the extension semantics. -/
def selectFormat (p : RPath) : ArchiveFormat :=
  if file_extension p = some "rar" then .rar else .zip

/-- `selectFormat` on a path given as a string. -/
def selectFormatStr (s : String) : ArchiveFormat :=
  selectFormat (parsePath s)

/-- Destination resolution of `main.rs` lines 103-123: the default is a
directory named after the archive's file stem; with `--smart` the
destination is the archive's parent directory extended by a fresh UUID
string (the `--out` override is not consulted); otherwise a supplied
`--out` must exist and not be a regular file.  The `uuid` argument stands
for the freshly generated `Uuid::new_v4` string. -/
def resolveDestination (fs : FS) (zipPath : RPath) (smart : Bool)
    (out : Option RPath) (uuid : String) : Except Error RPath :=
  match zipPath.fileName? with
  | none => .error (Error.io .invalidInput)
  | some fname =>
    let dflt : RPath := ⟨false, [stemOf fname]⟩
    if smart then
      match zipPath.parent? with
      | none => .error (Error.io .invalidInput)
      | some par => .ok (par.append [uuid])
    else
      match out with
      | some o =>
        match FS.lookup fs o with
        | none => .error (Error.io .noEnt)
        | some (Node.file _) => .error (Error.io .invalidInput)
        | some Node.dir => .ok o
      | none => .ok dflt

/-- Lexical normalization of a component list, resolving `..` against the
preceding component; used to state the containment invariant of the spec. -/
def normalizeComponents (cs : List String) : List String :=
  cs.foldl (fun acc c => if c = ".." then acc.dropLast else acc ++ [c]) []

/-- The containment invariant of spec section 3: the resolved output path
stays within the destination root, i.e. after resolving parent-directory
components the root is a prefix of the output path. -/
def withinRoot (root p : RPath) : Bool :=
  decide (root.absolute = p.absolute) &&
    (normalizeComponents root.components).isPrefixOf (normalizeComponents p.components)

/-! ### Path lemmas -/

theorem isPrefixOfBool {l₁ l₂ : List String} : l₁.isPrefixOf l₂ = true ↔ l₁ <+: l₂ :=
  List.isPrefixOf_iff_prefix

theorem isPref_iff {p q : RPath} :
    p.isPref q = true ↔ p.absolute = q.absolute ∧ p.components <+: q.components := by
  simp [RPath.isPref, isPrefixOfBool]

theorem isPref_false_iff {p q : RPath} :
    p.isPref q = false ↔ ¬(p.absolute = q.absolute ∧ p.components <+: q.components) := by
  rw [← Bool.not_eq_true, isPref_iff]

@[simp] theorem append_nil (p : RPath) : p.append [] = p := by
  simp [RPath.append]

@[simp] theorem append_absolute (p : RPath) (suf : List String) :
    (p.append suf).absolute = p.absolute := rfl

@[simp] theorem append_components (p : RPath) (suf : List String) :
    (p.append suf).components = p.components ++ suf := rfl

theorem append_append (p : RPath) (a b : List String) :
    (p.append a).append b = p.append (a ++ b) := by
  simp [RPath.append]

theorem append_right_inj {p : RPath} {a b : List String} :
    p.append a = p.append b ↔ a = b := by
  constructor
  · intro h
    have := congrArg RPath.components h
    simpa using this
  · intro h; rw [h]

theorem isPref_append_self (p : RPath) (suf : List String) :
    p.isPref (p.append suf) = true := by
  simp [isPref_iff, RPath.append]

theorem isPref_rfl (p : RPath) : p.isPref p = true := by
  simpa using isPref_append_self p []

theorem isPref_append_iff {p : RPath} {a b : List String} :
    (p.append a).isPref (p.append b) = true ↔ a <+: b := by
  simp [isPref_iff, RPath.append, List.prefix_append_right_inj]

theorem isPref_of_longer {p q : RPath}
    (h : q.components.length < p.components.length) : p.isPref q = false := by
  rw [isPref_false_iff]
  rintro ⟨-, hpre⟩
  exact absurd hpre.length_le (by omega)

theorem eq_of_isPref_of_length {p q : RPath} (h : p.isPref q = true)
    (hl : q.components.length ≤ p.components.length) : p = q := by
  have ha := (isPref_iff.1 h).1
  have hc : p.components = q.components :=
    ((isPref_iff.1 h).2).eq_of_length_le hl
  cases p; cases q
  simp only [] at ha hc
  subst ha; subst hc
  rfl

/-! ### Association-list filesystem lemmas -/

theorem lookup_restrict (fs : FS) (keep : RPath → Bool) (q : RPath) :
    FS.lookup (fs.restrict keep) q = if keep q then FS.lookup fs q else none := by
  induction fs with
  | nil => simp [FS.restrict, FS.lookup]
  | cons e rest ih =>
    simp only [FS.restrict, List.filter_cons] at ih ⊢
    by_cases hk : keep e.1
    · by_cases he : e.1 = q
      · subst he; simp [FS.lookup, hk]
      · simp [FS.lookup, hk, he, ih]
    · by_cases he : e.1 = q
      · subst he; simp [FS.lookup, hk, ih]
      · simp [FS.lookup, hk, he, ih]

theorem lookup_append (a b : FS) (q : RPath) :
    FS.lookup (a ++ b) q =
      match FS.lookup a q with
      | some n => some n
      | none => FS.lookup b q := by
  induction a with
  | nil => simp [FS.lookup]
  | cons e rest ih =>
    by_cases he : e.1 = q
    · simp [FS.lookup, he]
    · simp [FS.lookup, he, ih]

theorem lookup_set_self (fs : FS) (p : RPath) (n : Node) :
    FS.lookup (fs.set p n) p = some n := by
  simp [FS.set, FS.lookup]

theorem lookup_set_ne (fs : FS) (p q : RPath) (n : Node) (h : p ≠ q) :
    FS.lookup (fs.set p n) q = FS.lookup fs q := by
  simp [FS.set, FS.lookup, h, lookup_restrict]
  intro hq; exact absurd hq.symm h

theorem lookup_isSome_of_mem_keys {fs : FS} {q : RPath} (h : q ∈ fs.keys) :
    (FS.lookup fs q).isSome := by
  induction fs with
  | nil => simp [FS.keys] at h
  | cons e rest ih =>
    by_cases he : e.1 = q
    · simp [FS.lookup, he]
    · simp only [FS.keys, List.map_cons, List.mem_cons] at h
      rcases h with h | h
      · exact absurd h.symm he
      · simpa [FS.lookup, he] using ih h

theorem mem_keys_of_lookup_isSome {fs : FS} {q : RPath}
    (h : (FS.lookup fs q).isSome) : q ∈ fs.keys := by
  induction fs with
  | nil => simp [FS.lookup] at h
  | cons e rest ih =>
    by_cases he : e.1 = q
    · simp [FS.keys, he]
    · simp only [FS.lookup, he, if_false, ite_false] at h
      simp only [FS.keys, List.map_cons, List.mem_cons]
      right
      exact ih (by simpa [FS.lookup, he] using h)

theorem rpath_eq_iff {p q : RPath} :
    p = q ↔ p.absolute = q.absolute ∧ p.components = q.components := by
  cases p; cases q; simp

/-! ### Rename and move lemmas -/

theorem rerootKey_eq_iff {src dst k : RPath} (h : src.isPref k = true)
    (suf : List String) :
    rerootKey src dst k = dst.append suf ↔ k = src.append suf := by
  rcases isPref_iff.1 h with ⟨ha, t, ht⟩
  have hd : k.components.drop src.components.length = t := by
    rw [← ht, List.drop_left]
  rw [rerootKey, hd, append_right_inj, rpath_eq_iff]
  constructor
  · rintro rfl
    exact ⟨ha.symm, by simp [RPath.append, ← ht]⟩
  · rintro ⟨-, hc⟩
    rw [← ht] at hc
    simpa [RPath.append] using hc

theorem rerootKey_append (src dst : RPath) (suf : List String) :
    rerootKey src dst (src.append suf) = dst.append suf := by
  simp [rerootKey, RPath.append, List.drop_left]

theorem lookup_reroot (fs : FS) (src dst : RPath) (suf : List String) :
    FS.lookup (fs.reroot src dst) (dst.append suf) = FS.lookup fs (src.append suf) := by
  induction fs with
  | nil => simp [FS.reroot, FS.lookup]
  | cons e rest ih =>
    obtain ⟨k, v⟩ := e
    simp only [FS.reroot, List.filter_cons] at ih ⊢
    by_cases hp : src.isPref k
    · simp only [hp, if_true, List.map_cons]
      by_cases he' : k = src.append suf
      · subst he'
        simp [FS.lookup, rerootKey_append]
      · have he : rerootKey src dst k ≠ dst.append suf :=
          fun hx => he' ((rerootKey_eq_iff hp suf).1 hx)
        simp [FS.lookup, he, he', ih]
    · have he' : k ≠ src.append suf := by
        intro hx; rw [hx] at hp
        exact absurd (isPref_append_self src suf) (by simp [hp])
      simp [FS.lookup, hp, he', ih]

theorem lookup_reroot_none {fs : FS} {src dst q : RPath} (h : dst.isPref q = false) :
    FS.lookup (fs.reroot src dst) q = none := by
  induction fs with
  | nil => rfl
  | cons e rest ih =>
    obtain ⟨k, v⟩ := e
    simp only [FS.reroot, List.filter_cons] at ih ⊢
    by_cases hp : src.isPref k
    · have hne : rerootKey src dst k ≠ q := by
        intro hx
        rw [← hx, rerootKey, isPref_append_self] at h
        simp at h
      simp [FS.lookup, hp, hne, ih]
    · simp [FS.lookup, hp, ih]

theorem lookup_moveTree_moved (fs : FS) (src dst : RPath) (suf : List String) :
    FS.lookup (moveTree fs src dst) (dst.append suf) = FS.lookup fs (src.append suf) := by
  rw [moveTree, lookup_append, lookup_restrict]
  simp [isPref_append_self, lookup_reroot]

theorem lookup_moveTree_untouched {fs : FS} {src dst q : RPath}
    (h1 : src.isPref q = false) (h2 : dst.isPref q = false) :
    FS.lookup (moveTree fs src dst) q = FS.lookup fs q := by
  rw [moveTree, lookup_append, lookup_restrict]
  cases hx : FS.lookup fs q <;> simp [h1, h2, hx, lookup_reroot_none h2]

theorem rename_ok_cases {fs fs' : FS} {src dst : RPath}
    (h : rename fs src dst = .ok fs') :
    (∃ n, FS.lookup fs src = some n) ∧
      ((src = dst ∧ fs' = fs) ∨
        (src ≠ dst ∧ src.isPref dst = false ∧ dst.components ≠ [] ∧
          fs' = moveTree fs src dst)) := by
  unfold rename at h
  split at h
  · exact absurd h (by simp)
  · rename_i n hs
    refine ⟨⟨n, hs⟩, ?_⟩
    split at h
    · rename_i he
      exact Or.inl ⟨he, (Except.ok.inj h).symm⟩
    · rename_i he
      split at h
      · exact absurd h (by simp)
      · rename_i hp
        split at h
        · exact absurd h (by simp)
        · rename_i hd
          split at h
          · exact absurd h (by simp)
          · refine Or.inr ⟨he, by simpa using hp, hd, ?_⟩
            split at h
            · exact (Except.ok.inj h).symm
            · exact (Except.ok.inj h).symm
            · exact absurd h (by simp)
            · exact absurd h (by simp)
            · split at h
              · exact (Except.ok.inj h).symm
              · exact absurd h (by simp)

theorem rename_ok_moved {fs fs' : FS} {src dst : RPath}
    (h : rename fs src dst = .ok fs') (suf : List String) :
    FS.lookup fs' (dst.append suf) = FS.lookup fs (src.append suf) := by
  rcases (rename_ok_cases h).2 with ⟨he, rfl⟩ | ⟨-, -, -, rfl⟩
  · subst he; rfl
  · exact lookup_moveTree_moved fs src dst suf

theorem rename_ok_untouched {fs fs' : FS} {src dst q : RPath}
    (h : rename fs src dst = .ok fs')
    (h1 : src.isPref q = false) (h2 : dst.isPref q = false) :
    FS.lookup fs' q = FS.lookup fs q := by
  rcases (rename_ok_cases h).2 with ⟨-, rfl⟩ | ⟨-, -, -, rfl⟩
  · rfl
  · exact lookup_moveTree_untouched h1 h2

theorem rename_ok_src_gone {fs fs' : FS} {src dst : RPath}
    (h : rename fs src dst = .ok fs') (hne : src ≠ dst)
    (hds : dst.isPref src = false) :
    FS.lookup fs' src = none := by
  rcases (rename_ok_cases h).2 with ⟨he, -⟩ | ⟨-, -, -, rfl⟩
  · exact absurd he hne
  · rw [moveTree, lookup_append, lookup_restrict]
    simp [isPref_rfl, lookup_reroot_none hds]

theorem remove_dir_all_ok {fs fs' : FS} {p : RPath}
    (h : remove_dir_all fs p = .ok fs') :
    FS.lookup fs p = some Node.dir ∧ fs' = fs.restrict (fun q => !(p.isPref q)) := by
  unfold remove_dir_all at h
  split at h
  · exact absurd h (by simp)
  · exact absurd h (by simp)
  · rename_i hs
    exact ⟨hs, (Except.ok.inj h).symm⟩

theorem fms_ok_elim {fs fs₁ : FS} {src dst : RPath} {force : Bool}
    (h : forceMoveStep fs src dst force = .ok fs₁) :
    ∃ fsm, (fsm = fs ∨
        (FS.lookup fs dst = some Node.dir ∧
          fsm = fs.restrict (fun q => !(dst.isPref q)))) ∧
      rename fsm src dst = .ok fs₁ := by
  unfold forceMoveStep at h
  by_cases hc : force && fs_exists fs dst
  · rw [if_pos hc] at h
    cases hr : remove_dir_all fs dst with
    | error e => rw [hr] at h; exact absurd h (by simp)
    | ok fsm =>
      rw [hr] at h
      rcases remove_dir_all_ok hr with ⟨hd, rfl⟩
      exact ⟨_, Or.inr ⟨hd, rfl⟩, h⟩
  · rw [if_neg hc] at h
    exact ⟨fs, Or.inl rfl, h⟩

theorem fms_ok_untouched {fs fs₁ : FS} {src dst q : RPath} {force : Bool}
    (h : forceMoveStep fs src dst force = .ok fs₁)
    (h1 : src.isPref q = false) (h2 : dst.isPref q = false) :
    FS.lookup fs₁ q = FS.lookup fs q := by
  rcases fms_ok_elim h with ⟨fsm, hm, hr⟩
  have hu := rename_ok_untouched hr h1 h2
  rcases hm with rfl | ⟨-, rfl⟩
  · exact hu
  · rw [hu, lookup_restrict]; simp [h2]

theorem fms_ok_moved {fs fs₁ : FS} {src dst : RPath} {force : Bool}
    (h : forceMoveStep fs src dst force = .ok fs₁) (hne : src ≠ dst)
    (hds : dst.isPref src = false) (suf : List String) :
    FS.lookup fs₁ (dst.append suf) = FS.lookup fs (src.append suf) := by
  rcases fms_ok_elim h with ⟨fsm, hm, hr⟩
  have hmv := rename_ok_moved hr suf
  rcases hm with rfl | ⟨-, rfl⟩
  · exact hmv
  · have hsp : src.isPref dst = false := by
      rcases (rename_ok_cases hr).2 with ⟨he, -⟩ | ⟨-, hp, -, -⟩
      · exact absurd he hne
      · exact hp
    have hno : dst.isPref (src.append suf) = false := by
      rw [isPref_false_iff]
      rintro ⟨ha, hpre⟩
      rcases le_or_lt dst.components.length src.components.length with hl | hl
      · have hps : dst.components <+: src.components :=
          List.prefix_of_prefix_length_le hpre (List.prefix_append _ _) hl
        have : dst.isPref src = true := isPref_iff.2 ⟨by simpa using ha, hps⟩
        simp [this] at hds
      · have hps : src.components <+: dst.components :=
          List.prefix_of_prefix_length_le (List.prefix_append _ _) hpre (by omega)
        have : src.isPref dst = true := isPref_iff.2 ⟨by simpa using ha.symm, hps⟩
        simp [this] at hsp
    rw [hmv, lookup_restrict]
    simp [hno]

theorem fms_ok_src_gone {fs fs₁ : FS} {src dst : RPath} {force : Bool}
    (h : forceMoveStep fs src dst force = .ok fs₁) (hne : src ≠ dst)
    (hds : dst.isPref src = false) :
    FS.lookup fs₁ src = none := by
  rcases fms_ok_elim h with ⟨fsm, -, hr⟩
  exact rename_ok_src_gone hr hne hds

/-! ### Directory-listing lemmas -/

theorem mem_childrenKeys_of_lookup {fs : FS} {p : RPath} {c : String} {n : Node}
    (h : FS.lookup fs (p.append [c]) = some n) :
    (p.append [c]) ∈ FS.childrenKeys fs p := by
  have hmem : (p.append [c]) ∈ fs.keys :=
    mem_keys_of_lookup_isSome (by simp [h])
  simp [FS.childrenKeys, List.mem_filter, hmem, isPrefixOfBool, List.prefix_append]

theorem childrenKeys_ne_nil_of_lookup {fs : FS} {p : RPath} {c : String} {n : Node}
    (h : FS.lookup fs (p.append [c]) = some n) : FS.childrenKeys fs p ≠ [] := by
  intro he
  have hin := mem_childrenKeys_of_lookup h
  rw [he] at hin
  simp at hin

theorem mem_childrenKeys_elim {fs : FS} {p q : RPath}
    (h : q ∈ FS.childrenKeys fs p) :
    (∃ c, q = p.append [c]) ∧ (FS.lookup fs q).isSome := by
  simp only [FS.childrenKeys, List.mem_filter] at h
  rcases h with ⟨hmem, hcond⟩
  refine ⟨?_, lookup_isSome_of_mem_keys hmem⟩
  simp only [Bool.and_eq_true, decide_eq_true_eq, isPrefixOfBool] at hcond
  rcases hcond with ⟨⟨ha, hlen⟩, t, ht⟩
  have hlt : t.length = 1 := by
    have hx := congrArg List.length ht
    simp only [List.length_append] at hx
    omega
  cases t with
  | nil => simp at hlt
  | cons c t' =>
    cases t' with
    | nil => exact ⟨c, rpath_eq_iff.2 ⟨by simpa using ha, by simp [← ht]⟩⟩
    | cons d t'' =>
      simp only [List.length_cons] at hlt
      omega

theorem childrenKeys_nodup {fs : FS} (h : FS.Nodup fs) (p : RPath) :
    (FS.childrenKeys fs p).Nodup :=
  List.Nodup.filter _ h

theorem read_dir_ok {fs : FS} {p : RPath} {l : List RPath}
    (h : read_dir fs p = .ok l) :
    FS.lookup fs p = some Node.dir ∧ l = FS.childrenKeys fs p := by
  unfold read_dir at h
  split at h
  · rename_i hs
    exact ⟨hs, (Except.ok.inj h).symm⟩
  · exact absurd h (by simp)
  · exact absurd h (by simp)

theorem remove_dir_ok {fs fs' : FS} {p : RPath}
    (h : remove_dir fs p = .ok fs') :
    FS.lookup fs p = some Node.dir ∧ FS.childrenKeys fs p = [] ∧
      fs' = fs.restrict (fun q => !(decide (q = p))) := by
  unfold remove_dir at h
  split at h
  · exact absurd h (by simp)
  · exact absurd h (by simp)
  · rename_i hs
    split at h
    · rename_i hc
      exact ⟨hs, hc, (Except.ok.inj h).symm⟩
    · exact absurd h (by simp)

/-! ### Entry-writer lemmas -/

theorem createDirAllGo_ok_lookup (abs : Bool) :
    ∀ (cs done : List String) (fs fs' : FS),
      createDirAllGo abs fs done cs = .ok fs' → cs ≠ [] →
      FS.lookup fs' ⟨abs, done ++ cs⟩ = some Node.dir := by
  intro cs
  induction cs with
  | nil => intro done fs fs' _ hne; exact absurd rfl hne
  | cons c rest ih =>
    intro done fs fs' h _
    unfold createDirAllGo at h
    split at h
    · rename_i hs
      rcases Decidable.em (rest = []) with hr | hr
      · subst hr
        unfold createDirAllGo at h
        rw [← Except.ok.inj h]
        simpa using hs
      · have hx := ih (done ++ [c]) fs fs' h hr
        simpa [List.append_assoc] using hx
    · exact absurd h (by simp)
    · rcases Decidable.em (rest = []) with hr | hr
      · subst hr
        unfold createDirAllGo at h
        rw [← Except.ok.inj h]
        simpa using lookup_set_self fs ⟨abs, done ++ [c]⟩ Node.dir
      · have hx := ih (done ++ [c]) _ fs' h hr
        simpa [List.append_assoc] using hx

theorem create_dir_all_ok_lookup {fs fs' : FS} {p : RPath}
    (h : create_dir_all fs p = .ok fs') (hne : p.components ≠ []) :
    FS.lookup fs' p = some Node.dir := by
  have := createDirAllGo_ok_lookup p.absolute p.components [] fs fs' h hne
  simpa using this

theorem write_file_ok {fs fs' : FS} {p : RPath} {content : List Nat}
    (h : write_file fs p content = .ok fs') :
    fs' = fs.set p (Node.file content) := by
  unfold write_file at h
  by_cases h1 : p.components = []
  · rw [if_pos h1] at h; exact absurd h (by simp)
  · rw [if_neg h1] at h
    by_cases h2 : isDirOrRoot fs p.parentD
    · rw [if_neg (by simp [h2])] at h
      cases hs : FS.lookup fs p with
      | none => rw [hs] at h; exact (Except.ok.inj h).symm
      | some n =>
        cases n with
        | dir => rw [hs] at h; exact absurd h (by simp)
        | file c => rw [hs] at h; exact (Except.ok.inj h).symm
    · rw [if_pos (by simpa using h2)] at h
      exact absurd h (by simp)

theorem set_permissions_ok {fs fs' : FS} {p : RPath}
    (h : set_permissions fs p = .ok fs') : fs' = fs := by
  unfold set_permissions at h
  by_cases he : fs_exists fs p
  · rw [if_pos he] at h; exact (Except.ok.inj h).symm
  · rw [if_neg he] at h; exact absurd h (by simp)

/-! ### Further path helpers -/

theorem append_ne_of_length {p : RPath} {l₁ l₂ : List String}
    (h : l₁.length ≠ l₂.length) : p.append l₁ ≠ p.append l₂ := by
  intro hx
  exact h (by simpa using congrArg (fun x => x.components.length) hx)

theorem append_single_inj {p : RPath} {a b : String} :
    p.append [a] = p.append [b] ↔ a = b := by
  rw [append_right_inj]
  simp

theorem isPref_append_head {p : RPath} {a b : String} {l₁ l₂ : List String}
    (hne : a ≠ b) : (p.append (a :: l₁)).isPref (p.append (b :: l₂)) = false := by
  rw [isPref_false_iff]
  rintro ⟨-, hpre⟩
  simp only [append_components, List.prefix_append_right_inj] at hpre
  exact hne (List.cons_prefix_cons.1 hpre).1

theorem isPref_append_single_not_self {p : RPath} {a : String} :
    (p.append [a]).isPref p = false :=
  isPref_of_longer (by simp)

theorem getLast_append_single (p : RPath) (c : String) :
    ((p.append [c]).components).getLast? = some c := by
  simp [RPath.append]

/-! ### Finer rename analysis -/

theorem rename_ok_dst_cases {fs fs' : FS} {src dst : RPath}
    (h : rename fs src dst = .ok fs') (hne : src ≠ dst) :
    FS.lookup fs dst = none ∨
      ((∃ c₁, FS.lookup fs src = some (Node.file c₁)) ∧
        (∃ c₂, FS.lookup fs dst = some (Node.file c₂))) ∨
      (FS.lookup fs dst = some Node.dir ∧ FS.childrenKeys fs dst = []) := by
  unfold rename at h
  split at h
  · exact absurd h (by simp)
  · rename_i n hs
    split at h
    · rename_i he; exact absurd he hne
    · split at h
      · exact absurd h (by simp)
      · split at h
        · exact absurd h (by simp)
        · split at h
          · exact absurd h (by simp)
          · split at h
            · rename_i hd
              exact Or.inl hd
            · rename_i c₁ c₂ hd
              exact Or.inr (Or.inl ⟨⟨c₁, hs⟩, ⟨c₂, hd⟩⟩)
            · exact absurd h (by simp)
            · exact absurd h (by simp)
            · rename_i hd
              split at h
              · rename_i hck
                exact Or.inr (Or.inr ⟨hd, hck⟩)
              · exact absurd h (by simp)

/-! ### Orchestrator-loop lemmas -/

theorem unzipLoop_append (password : Option (List Nat)) (destination : RPath)
    (encoding : Encoding) (xs ys : List ZipEntry) (fs : FS) :
    unzipLoop password destination encoding (xs ++ ys) fs =
      match unzipLoop password destination encoding xs fs with
      | (fs', none) => unzipLoop password destination encoding ys fs'
      | (fs', some e) => (fs', some e) := by
  induction xs generalizing fs with
  | nil => rfl
  | cons e rest ih =>
    cases hg : getEntry e password with
    | error err => simp [List.cons_append, unzipLoop, hg]
    | ok e' =>
      cases hi : inflate e' destination encoding fs with
      | error ioe => simp [List.cons_append, unzipLoop, hg, hi]
      | ok pr =>
        obtain ⟨p, fs₁⟩ := pr
        simp only [List.cons_append, unzipLoop, hg, hi]
        exact ih fs₁

theorem unrarLoop_ok_count (destination : RPath) :
    ∀ (es : List RarEntry) (fs fs' : FS) (k n : Nat),
      unrarLoop destination es fs k = (fs', .ok n) →
      n = k + List.countP (fun e => e.is_file) es := by
  intro es
  induction es with
  | nil =>
    intro fs fs' k n h
    simp only [unrarLoop, Prod.mk.injEq, Except.ok.injEq] at h
    simp [← h.2]
  | cons e rest ih =>
    intro fs fs' k n h
    simp only [unrarLoop] at h
    split at h
    · simp at h
    · rename_i fs₁ hs
      have hx := ih fs₁ fs' _ n h
      by_cases hf : e.is_file
      · simp only [hf, if_true] at hx
        simp [List.countP_cons, hf, hx]
        omega
      · simp only [hf, if_false] at hx
        simp [List.countP_cons, hf, hx]

theorem moveEntries_error_prop (parent_dir : RPath) (force : Bool)
    (p : RPath) (rest : List RPath) (fs : FS) (c : String) (e : IoErr)
    (hc : p.components.getLast? = some c)
    (hstep : forceMoveStep fs p (parent_dir.append [c]) force = .error e) :
    moveEntries parent_dir force (p :: rest) fs = .error e := by
  simp [moveEntries, hc, hstep]


theorem append_single_append (p : RPath) (a : String) (l : List String) :
    (p.append [a]).append l = p.append (a :: l) := by
  rw [append_append]
  simp

theorem isPref_child_sib0 {par : RPath} {a r c : String} (h : a ≠ r) :
    (par.append [a]).isPref ((par.append [r]).append [c]) = false := by
  rw [append_single_append par r [c]]
  exact isPref_append_head h

theorem isPref_sib_deep {par : RPath} {a r c : String} {suf : List String}
    (h : a ≠ r) :
    (par.append [a]).isPref (((par.append [r]).append [c]).append suf) = false := by
  rw [append_single_append (par.append [r]) c suf,
    append_single_append par r (c :: suf)]
  exact isPref_append_head h

theorem isPref_child_other {P : RPath} {c c' : String} {suf : List String}
    (h : c ≠ c') :
    (P.append [c]).isPref ((P.append [c']).append suf) = false := by
  rw [append_single_append P c' suf]
  exact isPref_append_head h

theorem isPref_deepchild_sib {par : RPath} {r c a : String} {suf : List String}
    (h : r ≠ a) :
    ((par.append [r]).append [c]).isPref ((par.append [a]).append suf) = false := by
  rw [append_single_append par r [c], append_single_append par a suf]
  exact isPref_append_head h

/-- The move loop of the wrapper branch, specified: when it succeeds on a
list of child keys of the root `par.append [r]`, the root directory is still
in place (its removal comes later), no child carried the root's own name,
each child subtree now sits at the sibling path directly under `par`, and
every path outside the involved subtrees is untouched. -/
theorem moveEntries_spec (par : RPath) (r : String) (force : Bool) :
    ∀ (cs : List RPath) (fs fsf : FS),
      moveEntries par force cs fs = .ok fsf →
      (∀ q ∈ cs, ∃ c, q = (par.append [r]).append [c]) →
      (∀ q ∈ cs, (FS.lookup fs q).isSome) →
      cs.Nodup →
      FS.lookup fs (par.append [r]) = some Node.dir →
      FS.lookup fsf (par.append [r]) = some Node.dir ∧
        (∀ c : String, (par.append [r]).append [c] ∈ cs → c ≠ r) ∧
        (∀ c : String, (par.append [r]).append [c] ∈ cs → ∀ suf : List String,
          FS.lookup fsf ((par.append [c]).append suf) =
            FS.lookup fs (((par.append [r]).append [c]).append suf)) ∧
        (∀ k : RPath,
          (∀ c : String, (par.append [r]).append [c] ∈ cs →
            ((par.append [r]).append [c]).isPref k = false ∧
              (par.append [c]).isPref k = false) →
          FS.lookup fsf k = FS.lookup fs k) := by
  intro cs
  induction cs with
  | nil =>
    intro fs fsf h _ _ _ hroot
    have hf : fsf = fs := (Except.ok.inj h).symm
    subst hf
    exact ⟨hroot, by simp, by simp, fun k _ => rfl⟩
  | cons q cs' ih =>
    intro fs fsf h hshape hpres hnd hroot
    obtain ⟨c, rfl⟩ := hshape q (by simp)
    simp only [moveEntries, getLast_append_single] at h
    split at h
    · exact absurd h (by simp)
    · rename_i fs₁ hstep
      by_cases hcr : c = r
      · subst hcr
        exfalso
        rcases fms_ok_elim hstep with ⟨fsm, hm, hr⟩
        rcases hm with rfl | ⟨-, rfl⟩
        · have hne : (par.append [c]).append [c] ≠ par.append [c] := by
            intro hx
            have h2 := congrArg (fun x => x.components.length) hx
            simp only [append_components, List.length_append, List.length_cons,
              List.length_nil] at h2
            omega
          rcases rename_ok_dst_cases hr hne with hnone | ⟨-, c₂, hdf⟩ | ⟨-, hck⟩
          · rw [hroot] at hnone
            exact Option.noConfusion hnone
          · rw [hroot] at hdf
            simp at hdf
          · have hps := hpres ((par.append [c]).append [c]) (by simp)
            obtain ⟨n, hn⟩ := Option.isSome_iff_exists.1 hps
            exact childrenKeys_ne_nil_of_lookup hn hck
        · obtain ⟨⟨n, hn⟩, -⟩ := rename_ok_cases hr
          rw [lookup_restrict] at hn
          simp [isPref_append_self] at hn
      · have hqne : ∀ c' : String, (par.append [r]).append [c'] ∈ cs' → c' ≠ c := by
          intro c' hq' hx
          subst hx
          exact (List.nodup_cons.1 hnd).1 hq'
        have hsrc_ne_dst : (par.append [r]).append [c] ≠ par.append [c] := by
          intro hx
          have h2 := congrArg (fun x => x.components.length) hx
          simp only [append_components, List.length_append, List.length_cons,
            List.length_nil] at h2
          omega
        have hds : (par.append [c]).isPref ((par.append [r]).append [c]) = false :=
          isPref_child_sib0 hcr
        have hroot₁ : FS.lookup fs₁ (par.append [r]) = some Node.dir := by
          rw [fms_ok_untouched hstep isPref_append_single_not_self
            (isPref_append_head hcr)]
          exact hroot
        have hshape' : ∀ q' ∈ cs', ∃ c', q' = (par.append [r]).append [c'] :=
          fun q' hq' => hshape q' (by simp [hq'])
        have hpres' : ∀ q' ∈ cs', (FS.lookup fs₁ q').isSome := by
          intro q' hq'
          obtain ⟨c', rfl⟩ := hshape' q' hq'
          have hcc : c ≠ c' := fun hx => (hqne c' hq') hx.symm
          rw [fms_ok_untouched hstep (isPref_append_head hcc)
            (isPref_child_sib0 hcr)]
          exact hpres _ (by simp [hq'])
        obtain ⟨ihroot, ihner, ihmoved, ihtouch⟩ :=
          ih fs₁ fsf h hshape' hpres' (List.nodup_cons.1 hnd).2 hroot₁
        refine ⟨ihroot, ?_, ?_, ?_⟩
        · intro c₀ hmem
          rcases List.mem_cons.1 hmem with heq | hmem'
          · exact (append_single_inj.1 heq) ▸ hcr
          · exact ihner c₀ hmem'
        · intro c₀ hmem suf
          rcases List.mem_cons.1 hmem with heq | hmem'
          · obtain rfl : c₀ = c := append_single_inj.1 heq
            have hk : FS.lookup fsf ((par.append [c₀]).append suf) =
                FS.lookup fs₁ ((par.append [c₀]).append suf) := by
              refine ihtouch _ ?_
              intro c'' hmem''
              have hner : r ≠ c₀ := fun hx => hcr hx.symm
              have hcc : c'' ≠ c₀ := hqne c'' hmem''
              exact ⟨isPref_deepchild_sib hner, isPref_child_other hcc⟩
            rw [hk]
            exact fms_ok_moved hstep hsrc_ne_dst hds suf
          · have hcc : c ≠ c₀ := fun hx => (hqne c₀ hmem') hx.symm
            rw [ihmoved c₀ hmem' suf]
            exact fms_ok_untouched hstep (isPref_child_other hcc)
              (isPref_sib_deep hcr)
        · intro k hp
          rcases hp c (by simp) with ⟨h1, h2⟩
          have hrest : ∀ c'' : String, (par.append [r]).append [c''] ∈ cs' →
              ((par.append [r]).append [c'']).isPref k = false ∧
                (par.append [c'']).isPref k = false :=
            fun c'' hmem'' => hp c'' (by simp [hmem''])
          rw [ihtouch k hrest]
          exact fms_ok_untouched hstep h1 h2

theorem mdctp_ok_elim {fs fs' : FS} {dir p' : RPath} {force : Bool}
    (h : move_dir_contents_to_parent fs dir force = .ok (fs', p')) :
    ∃ (parent_dir : RPath) (entries : List RPath) (fs₁ : FS),
      dir.parent? = some parent_dir ∧ p' = parent_dir ∧
      read_dir fs dir = .ok entries ∧
      moveEntries parent_dir force entries fs = .ok fs₁ ∧
      remove_dir fs₁ dir = .ok fs' := by
  unfold move_dir_contents_to_parent at h
  split at h
  · exact absurd h (by simp)
  · rename_i parent_dir hpar
    split at h
    · exact absurd h (by simp)
    · rename_i entries hrd
      split at h
      · exact absurd h (by simp)
      · rename_i fs₁ hme
        split at h
        · exact absurd h (by simp)
        · rename_i fs₂ hrm
          obtain ⟨hfs, hp⟩ := Prod.mk.injEq .. ▸ (Except.ok.inj h)
          exact ⟨parent_dir, entries, fs₁, hpar, hp.symm, hrd, hme, hfs ▸ hrm⟩

theorem process_directory_ok_elim {fs fs' : FS} {root p' : RPath}
    {name : String} {force : Bool}
    (h : process_directory fs root name force = .ok (fs', p')) :
    FS.lookup fs root = some Node.dir ∧
      ((containsOnlyDirs fs root = true ∧
          move_dir_contents_to_parent fs root force = .ok (fs', p')) ∨
        (containsOnlyDirs fs root = false ∧ p' = root.withFileName name ∧
          forceMoveStep fs root (root.withFileName name) force = .ok fs')) := by
  unfold process_directory at h
  split at h
  · exact absurd h (by simp)
  · rename_i entries hrd
    obtain ⟨hdir, hent⟩ := read_dir_ok hrd
    subst hent
    refine ⟨hdir, ?_⟩
    split at h
    · rename_i hcond
      exact Or.inl ⟨hcond, h⟩
    · rename_i hcond
      split at h
      · exact absurd h (by simp)
      · rename_i fs₁ hstep
        obtain ⟨hfs, hp⟩ := Prod.mk.injEq .. ▸ (Except.ok.inj h)
        exact Or.inr ⟨by unfold containsOnlyDirs; exact Bool.eq_false_iff.2 hcond,
          hp.symm, hfs ▸ hstep⟩

/-- C4: for every extraction root, the reconciler `process_directory` behaves
as follows on success: if every direct child of the root is a directory, each
child (with its whole subtree) is moved up to become a sibling of the root in
the root's parent directory and the root is then deleted, the caller's path
ending at the parent; otherwise the root itself is renamed to the archive's
base name. -/
theorem c4_reconciler_branches
    (fs fs' : FS) (root p' : RPath) (zip_name : String) (force : Bool)
    (hok : process_directory fs root zip_name force = .ok (fs', p'))
    (hnd : FS.Nodup fs) :
    (containsOnlyDirs fs root = true →
      root.parent? = some p' ∧
      FS.lookup fs' root = none ∧
      (∀ (c : String) (n : Node), FS.lookup fs (root.append [c]) = some n →
        ∀ suf : List String,
          FS.lookup fs' ((p'.append [c]).append suf) =
            FS.lookup fs ((root.append [c]).append suf))) ∧
    (containsOnlyDirs fs root = false →
      p' = root.withFileName zip_name ∧
      FS.lookup fs' p' = some Node.dir ∧
      (root ≠ p' → FS.lookup fs' root = none)) := by
  obtain ⟨hdir, hbr⟩ := process_directory_ok_elim hok
  constructor
  · intro hc
    rcases hbr with ⟨-, hmv⟩ | ⟨hcf, -, -⟩
    swap
    · rw [hc] at hcf; exact absurd hcf (by simp)
    obtain ⟨par, entries, fs₁, hpar, rfl, hrd, hme, hrm⟩ := mdctp_ok_elim hmv
    obtain ⟨-, hent⟩ := read_dir_ok hrd
    subst hent
    have hne : root.components ≠ [] := by
      intro hx
      rw [RPath.parent?, if_pos hx] at hpar
      exact Option.noConfusion hpar
    have hparD : p' = root.parentD := by
      rw [RPath.parent?, if_neg hne] at hpar
      exact (Option.some.inj hpar).symm
    obtain ⟨r, hroot_eq⟩ : ∃ r, root = p'.append [r] := by
      refine ⟨root.components.getLast hne, rpath_eq_iff.2 ⟨?_, ?_⟩⟩
      · rw [hparD]; rfl
      · rw [hparD]
        simp only [append_components, RPath.parentD]
        exact (List.dropLast_append_getLast hne).symm
    subst hroot_eq
    have hshape : ∀ q ∈ FS.childrenKeys fs (p'.append [r]),
        ∃ c, q = (p'.append [r]).append [c] :=
      fun q hq => (mem_childrenKeys_elim hq).1
    have hpres : ∀ q ∈ FS.childrenKeys fs (p'.append [r]),
        (FS.lookup fs q).isSome :=
      fun q hq => (mem_childrenKeys_elim hq).2
    obtain ⟨-, sner, smoved, -⟩ :=
      moveEntries_spec p' r force (FS.childrenKeys fs (p'.append [r])) fs fs₁
        hme hshape hpres (childrenKeys_nodup hnd _) hdir
    refine ⟨hpar, ?_, ?_⟩
    · obtain ⟨-, -, rfl⟩ := remove_dir_ok hrm
      rw [lookup_restrict]
      simp
    · intro c n hcn suf
      have hmm := mem_childrenKeys_of_lookup hcn
      have hcne : c ≠ r := sner c hmm
      have hkey_ne : (p'.append [c]).append suf ≠ p'.append [r] := by
        rw [append_single_append]
        intro hx
        rw [append_right_inj] at hx
        simp at hx
        exact hcne hx.1
      obtain ⟨-, -, rfl⟩ := remove_dir_ok hrm
      rw [lookup_restrict]
      simp only [hkey_ne, decide_eq_false_iff_not, not_false_eq_true,
        Bool.not_false, if_true]
      exact smoved c hmm suf
  · intro hc
    rcases hbr with ⟨hct, -⟩ | ⟨-, rfl, hstep⟩
    · rw [hc] at hct; exact absurd hct (by simp)
    refine ⟨rfl, ?_⟩
    by_cases he : root = root.withFileName zip_name
    · rcases fms_ok_elim hstep with ⟨fsm, hm, hr⟩
      rcases (rename_ok_cases hr).2 with ⟨-, rfl⟩ | ⟨hne', -, -, -⟩
      · rcases hm with rfl | ⟨-, rfl⟩
        · exact ⟨by rw [← he]; exact hdir, fun hner => absurd he hner⟩
        · obtain ⟨⟨n, hn⟩, -⟩ := rename_ok_cases hr
          rw [lookup_restrict] at hn
          rw [← he] at hn
          simp [isPref_rfl] at hn
      · exact absurd he hne'
    · have hds : (root.withFileName zip_name).isPref root = false := by
        by_cases hce : root.components = []
        · exact isPref_of_longer (by simp [RPath.withFileName, hce])
        · cases hP : (root.withFileName zip_name).isPref root with
          | false => rfl
          | true =>
            have hlen : root.components.length ≤
                (root.withFileName zip_name).components.length := by
              simp only [RPath.withFileName, List.length_append,
                List.length_dropLast, List.length_cons, List.length_nil]
              omega
            exact absurd (eq_of_isPref_of_length hP hlen).symm he
      refine ⟨?_, fun _ => fms_ok_src_gone hstep he hds⟩
      rw [← append_nil (root.withFileName zip_name), fms_ok_moved hstep he hds []]
      simpa using hdir

/-! ### Entry-inflation dissection -/

theorem inflate_decode_error {e : ZipEntry} {dest : RPath} {enc : Encoding}
    {fs : FS} (h : (enc.decode e.nameRaw).2 = true) :
    inflate e dest enc fs = .error .invalidData := by
  simp [inflate, h]

theorem inflate_ok_parts {e : ZipEntry} {dest : RPath} {enc : Encoding}
    {fs fs' : FS} {p : RPath} (h : inflate e dest enc fs = .ok (p, fs')) :
    (enc.decode e.nameRaw).2 = false ∧
      p = dest.join (parsePath (enc.decode e.nameRaw).1) ∧
      ((nameEndsWithSlash e.nameRaw = true ∧ create_dir_all fs p = .ok fs') ∨
        (nameEndsWithSlash e.nameRaw = false ∧
          ∃ fs₁, write_file fs₁ p e.content = .ok fs')) := by
  simp only [inflate] at h
  split at h
  · exact absurd h (by simp)
  · rename_i hdec
    refine ⟨by simpa using hdec, ?_⟩
    split at h
    · exact absurd h (by simp)
    · rename_i fs₂ hw
      split at h
      · split at h
        · exact absurd h (by simp)
        · rename_i fs₃ hsp
          obtain ⟨hp, hfs⟩ := Prod.mk.injEq .. ▸ (Except.ok.inj h)
          subst hp
          obtain rfl : fs₃ = fs₂ := set_permissions_ok hsp
          refine ⟨rfl, ?_⟩
          subst hfs
          by_cases hsl : nameEndsWithSlash e.nameRaw
          · rw [if_pos hsl] at hw
            exact Or.inl ⟨hsl, hw⟩
          · rw [if_neg hsl] at hw
            refine Or.inr ⟨by simpa using hsl, ?_⟩
            split at hw
            · exact absurd hw (by simp)
            · rename_i fs₁ hmk
              exact ⟨fs₁, hw⟩
      · obtain ⟨hp, hfs⟩ := Prod.mk.injEq .. ▸ (Except.ok.inj h)
        subst hp
        refine ⟨rfl, ?_⟩
        subst hfs
        by_cases hsl : nameEndsWithSlash e.nameRaw
        · rw [if_pos hsl] at hw
          exact Or.inl ⟨hsl, hw⟩
        · rw [if_neg hsl] at hw
          refine Or.inr ⟨by simpa using hsl, ?_⟩
          split at hw
          · exact absurd hw (by simp)
          · rename_i fs₁ hmk
            exact ⟨fs₁, hw⟩

theorem rarStep_skip {dest : RPath} {fs : FS} {e : RarEntry}
    (h : e.is_file = false) : rarStep dest fs e = .ok fs := by
  simp [rarStep, h]

theorem rarStep_file_ok {dest : RPath} {fs fs' : FS} {e : RarEntry}
    (hf : e.is_file = true) (h : rarStep dest fs e = .ok fs') :
    FS.lookup fs' (dest.join (parsePath e.filename)) = some (Node.file e.data) := by
  simp only [rarStep, hf, if_true] at h
  split at h
  · exact absurd h (by simp)
  · split at h
    · exact absurd h (by simp)
    · rename_i fs₁ hcda
      split at h
      · exact absurd h (by simp)
      · rename_i fs₂ hwr
        obtain rfl : fs₂ = fs' := Except.ok.inj h
        rw [write_file_ok hwr]
        exact lookup_set_self fs₁ _ _

/-! ### Rename outcome lemmas for the collision analysis -/

theorem rename_success_no_dst {fs : FS} {src dst : RPath} {n : Node}
    (hs : FS.lookup fs src = some n) (hne : src ≠ dst)
    (hsp : src.isPref dst = false) (hdc : dst.components ≠ [])
    (hpar : isDirOrRoot fs dst.parentD = true)
    (hdst : FS.lookup fs dst = none) :
    rename fs src dst = .ok (moveTree fs src dst) := by
  simp [rename, hs, hne, hsp, hdc, hpar, hdst]

theorem rename_success_empty_dir {fs : FS} {src dst : RPath}
    (hs : FS.lookup fs src = some Node.dir) (hne : src ≠ dst)
    (hsp : src.isPref dst = false) (hdc : dst.components ≠ [])
    (hpar : isDirOrRoot fs dst.parentD = true)
    (hdst : FS.lookup fs dst = some Node.dir)
    (hck : FS.childrenKeys fs dst = []) :
    rename fs src dst = .ok (moveTree fs src dst) := by
  simp [rename, hs, hne, hsp, hdc, hpar, hdst, hck]

theorem rename_error_file_dst {fs : FS} {src dst : RPath} {bs : List Nat}
    (hs : FS.lookup fs src = some Node.dir) (hne : src ≠ dst)
    (hsp : src.isPref dst = false) (hdc : dst.components ≠ [])
    (hpar : isDirOrRoot fs dst.parentD = true)
    (hdst : FS.lookup fs dst = some (Node.file bs)) :
    rename fs src dst = .error .notADir := by
  simp [rename, hs, hne, hsp, hdc, hpar, hdst]

theorem rename_error_nonempty_dir {fs : FS} {src dst : RPath}
    (hs : FS.lookup fs src = some Node.dir) (hne : src ≠ dst)
    (hsp : src.isPref dst = false) (hdc : dst.components ≠ [])
    (hpar : isDirOrRoot fs dst.parentD = true)
    (hdst : FS.lookup fs dst = some Node.dir)
    (hck : FS.childrenKeys fs dst ≠ []) :
    rename fs src dst = .error .notEmpty := by
  simp [rename, hs, hne, hsp, hdc, hpar, hdst, hck]

theorem isPref_parentD {dst : RPath} (hdc : dst.components ≠ []) :
    dst.isPref dst.parentD = false := by
  apply isPref_of_longer
  have hpos : 0 < dst.components.length := List.length_pos.2 hdc
  simp only [RPath.parentD, List.length_dropLast]
  omega

theorem isDirOrRoot_restrict {fs : FS} {dst q : RPath}
    (h : isDirOrRoot fs q = true) (hnp : dst.isPref q = false) :
    isDirOrRoot (fs.restrict (fun x => !(dst.isPref x))) q = true := by
  simp only [isDirOrRoot, Bool.or_eq_true, decide_eq_true_eq] at h ⊢
  rcases h with h | h
  · exact Or.inl h
  · refine Or.inr ?_
    rw [lookup_restrict]
    simp [hnp, h]

/-! ### Claim theorems -/

/-- C1 (code bug): the spec requires every resolved output path to stay
within the destination root, but `inflate` joins the decoded entry name onto
the destination with no validation.  A ZIP entry named `../evil.txt`
extracted to `dest` succeeds and resolves to `dest/../evil.txt`, which is
outside the root; an absolute entry name `/etc/x` replaces the destination
entirely.  The association-list model records the un-normalized key; a real
filesystem resolves the `..` upward, which is exactly the escape. -/
theorem c1_path_escape_code_bug :
    inflate ⟨asciiBytes "../evil.txt", asciiBytes "stolen", none, none⟩
        (parsePath "dest") asciiEncoding [] =
      .ok (⟨false, ["dest", "..", "evil.txt"]⟩,
        [(⟨false, ["dest", "..", "evil.txt"]⟩, Node.file (asciiBytes "stolen")),
         (⟨false, ["dest", ".."]⟩, Node.dir),
         (⟨false, ["dest"]⟩, Node.dir)]) ∧
    withinRoot (parsePath "dest") ⟨false, ["dest", "..", "evil.txt"]⟩ = false ∧
    inflate ⟨asciiBytes "/etc/x", asciiBytes "s", none, none⟩
        (parsePath "dest") asciiEncoding [] =
      .ok (⟨true, ["etc", "x"]⟩,
        [(⟨true, ["etc", "x"]⟩, Node.file (asciiBytes "s")),
         (⟨true, ["etc"]⟩, Node.dir)]) ∧
    withinRoot (parsePath "dest") ⟨true, ["etc", "x"]⟩ = false :=
  ⟨rfl, rfl, rfl, rfl⟩

/-- C9: when smart mode is requested, the destination is the archive's
parent directory extended by the freshly generated UUID string, and the
caller-supplied output-directory override is ignored: `out` is universally
quantified and absent from the result. -/
theorem c9_smart_ignores_out
    (fs : FS) (zipPath par : RPath) (out : Option RPath) (uuid fname : String)
    (hname : zipPath.fileName? = some fname)
    (hpar : zipPath.parent? = some par) :
    resolveDestination fs zipPath true out uuid = .ok (par.append [uuid]) := by
  simp [resolveDestination, hname, hpar]

/-- Witness for `c9_smart_ignores_out` at a concrete archive path and a
concrete (ignored) output override. -/
theorem c9_smart_ignores_out_witness :
    resolveDestination [] ⟨false, ["a", "b.zip"]⟩ true
        (some ⟨false, ["elsewhere"]⟩) "u-77" =
      .ok ⟨false, ["a", "u-77"]⟩ :=
  c9_smart_ignores_out [] ⟨false, ["a", "b.zip"]⟩ ⟨false, ["a"]⟩
    (some ⟨false, ["elsewhere"]⟩) "u-77" "b.zip" rfl rfl

/-- C10: in smart mode with an extraction root that has no children, the
reconciler takes the wrapper branch, moves nothing, deletes the empty root,
and the path reported afterwards is the root's parent directory. -/
theorem c10_empty_root_wrapper
    (fs : FS) (root par : RPath) (name : String) (force : Bool)
    (hdir : FS.lookup fs root = some Node.dir)
    (hkids : FS.childrenKeys fs root = [])
    (hpar : root.parent? = some par) :
    process_directory fs root name force =
      .ok (fs.restrict (fun q => !(decide (q = root))), par) := by
  have hrd : read_dir fs root = .ok [] := by
    simp [read_dir, hdir, hkids]
  simp [process_directory, move_dir_contents_to_parent, hrd, hpar, moveEntries,
    remove_dir, hdir, hkids]

/-- Witness for `c10_empty_root_wrapper`: a root with no children is removed
and the parent is reported. -/
theorem c10_empty_root_wrapper_witness :
    process_directory [(⟨false, ["r"]⟩, Node.dir)] ⟨false, ["r"]⟩ "z" false =
      .ok ([], ⟨false, []⟩) := by
  have h := c10_empty_root_wrapper [(⟨false, ["r"]⟩, Node.dir)] ⟨false, ["r"]⟩
    ⟨false, []⟩ "z" false rfl rfl rfl
  simpa using h

/-- C5 (amended): in a reconciler move with the source an existing directory
and a well-formed destination, the collision handling is: with `force`, a
colliding destination directory is recursively deleted and the rename then
proceeds, while a colliding regular file makes `remove_dir_all` fail with
`NotADirectory`; without `force`, a colliding regular file or non-empty
directory is a terminal error, but a colliding empty directory is silently
replaced by `fs::rename`.  In every error case the error propagates out of
the move loop at once, so no further reconciliation step runs. -/
theorem c5_force_collision_semantics :
    (∀ (fs : FS) (src dst : RPath),
      FS.lookup fs src = some Node.dir →
      src ≠ dst → src.isPref dst = false → dst.isPref src = false →
      dst.components ≠ [] →
      isDirOrRoot fs dst.parentD = true →
      ((FS.lookup fs dst = some Node.dir →
          ∃ fs₁, forceMoveStep fs src dst true = .ok fs₁ ∧
            FS.lookup fs₁ dst = some Node.dir ∧ FS.lookup fs₁ src = none) ∧
        (∀ bs, FS.lookup fs dst = some (Node.file bs) →
          forceMoveStep fs src dst true = .error .notADir) ∧
        (∀ bs, FS.lookup fs dst = some (Node.file bs) →
          forceMoveStep fs src dst false = .error .notADir) ∧
        (FS.lookup fs dst = some Node.dir → FS.childrenKeys fs dst ≠ [] →
          forceMoveStep fs src dst false = .error .notEmpty) ∧
        (FS.lookup fs dst = some Node.dir → FS.childrenKeys fs dst = [] →
          ∃ fs₁, forceMoveStep fs src dst false = .ok fs₁ ∧
            FS.lookup fs₁ dst = some Node.dir ∧ FS.lookup fs₁ src = none))) ∧
    (∀ (parent_dir : RPath) (force : Bool) (p : RPath) (rest : List RPath)
        (fs : FS) (c : String) (e : IoErr),
      p.components.getLast? = some c →
      forceMoveStep fs p (parent_dir.append [c]) force = .error e →
      moveEntries parent_dir force (p :: rest) fs = .error e) := by
  constructor
  · intro fs src dst hs hne hsp hds hdc hpar
    refine ⟨?_, ?_, ?_, ?_, ?_⟩
    · intro hdst
      have hex : fs_exists fs dst = true := by simp [fs_exists, hdst]
      have hrda : remove_dir_all fs dst =
          .ok (fs.restrict (fun q => !(dst.isPref q))) := by
        simp [remove_dir_all, hdst]
      have hsrcR : FS.lookup (fs.restrict (fun q => !(dst.isPref q))) src =
          some Node.dir := by
        rw [lookup_restrict]
        simp [hds, hs]
      have hdstR : FS.lookup (fs.restrict (fun q => !(dst.isPref q))) dst =
          none := by
        rw [lookup_restrict]
        simp [isPref_rfl]
      have hren := rename_success_no_dst hsrcR hne hsp hdc
        (isDirOrRoot_restrict hpar (isPref_parentD hdc)) hdstR
      have hfm : forceMoveStep fs src dst true =
          rename (fs.restrict (fun q => !(dst.isPref q))) src dst := by
        simp [forceMoveStep, hex, hrda]
      refine ⟨_, by rw [hfm, hren], ?_, rename_ok_src_gone hren hne hds⟩
      have hmv := rename_ok_moved hren []
      simp only [append_nil] at hmv
      rw [hmv]
      exact hsrcR
    · intro bs hdstf
      have hex : fs_exists fs dst = true := by simp [fs_exists, hdstf]
      have hrda : remove_dir_all fs dst = .error .notADir := by
        simp [remove_dir_all, hdstf]
      simp [forceMoveStep, hex, hrda]
    · intro bs hdstf
      have hfm : forceMoveStep fs src dst false = rename fs src dst := by
        simp [forceMoveStep]
      rw [hfm]
      exact rename_error_file_dst hs hne hsp hdc hpar hdstf
    · intro hdst hck
      have hfm : forceMoveStep fs src dst false = rename fs src dst := by
        simp [forceMoveStep]
      rw [hfm]
      exact rename_error_nonempty_dir hs hne hsp hdc hpar hdst hck
    · intro hdst hck
      have hren := rename_success_empty_dir hs hne hsp hdc hpar hdst hck
      have hfm : forceMoveStep fs src dst false = rename fs src dst := by
        simp [forceMoveStep]
      refine ⟨_, by rw [hfm, hren], ?_, rename_ok_src_gone hren hne hds⟩
      have hmv := rename_ok_moved hren []
      simp only [append_nil] at hmv
      rw [hmv]
      exact hs
  · exact fun pd force p rest fs c e hc hstep =>
      moveEntries_error_prop pd force p rest fs c e hc hstep

/-- Counterexample to C5 as stated: the extraction root `p/r` contains only
the directory `p/r/a`, and an empty directory `p/a` already exists at the
destination the reconciler needs to occupy.  Without `force` the claim says
this collision is a terminal error, yet the run succeeds: `fs::rename`
silently replaces the empty directory. -/
theorem c5_silent_empty_dir_replace_counterexample :
    fs_exists
        [(⟨false, ["p"]⟩, Node.dir), (⟨false, ["p", "r"]⟩, Node.dir),
         (⟨false, ["p", "r", "a"]⟩, Node.dir), (⟨false, ["p", "a"]⟩, Node.dir)]
        ⟨false, ["p", "a"]⟩ = true ∧
    process_directory
        [(⟨false, ["p"]⟩, Node.dir), (⟨false, ["p", "r"]⟩, Node.dir),
         (⟨false, ["p", "r", "a"]⟩, Node.dir), (⟨false, ["p", "a"]⟩, Node.dir)]
        ⟨false, ["p", "r"]⟩ "z" false =
      .ok ([(⟨false, ["p"]⟩, Node.dir), (⟨false, ["p", "a"]⟩, Node.dir)],
        ⟨false, ["p"]⟩) :=
  ⟨rfl, rfl⟩

/-- Witness for `c5_force_collision_semantics`: with `force`, a colliding
directory destination is deleted and the move proceeds. -/
theorem c5_force_collision_semantics_witness :
    ∃ fs₁,
      forceMoveStep
          [(⟨false, ["p"]⟩, Node.dir), (⟨false, ["p", "s"]⟩, Node.dir),
           (⟨false, ["p", "d"]⟩, Node.dir)]
          ⟨false, ["p", "s"]⟩ ⟨false, ["p", "d"]⟩ true = .ok fs₁ ∧
        FS.lookup fs₁ ⟨false, ["p", "d"]⟩ = some Node.dir ∧
        FS.lookup fs₁ ⟨false, ["p", "s"]⟩ = none :=
  ((c5_force_collision_semantics.1
      [(⟨false, ["p"]⟩, Node.dir), (⟨false, ["p", "s"]⟩, Node.dir),
       (⟨false, ["p", "d"]⟩, Node.dir)]
      ⟨false, ["p", "s"]⟩ ⟨false, ["p", "d"]⟩
      rfl (by decide) rfl rfl (by decide) rfl).1) rfl

/-- Witness for `c4_reconciler_branches`: a root `p/r` whose only child is
the directory `p/r/a` is unwrapped — `p/r/a` becomes `p/a`, `p/r` is gone,
and the reported path is the parent `p`. -/
theorem c4_reconciler_branches_witness :
    (⟨false, ["p", "r"]⟩ : RPath).parent? = some ⟨false, ["p"]⟩ ∧
    FS.lookup [(⟨false, ["p"]⟩, Node.dir), (⟨false, ["p", "a"]⟩, Node.dir)]
        ⟨false, ["p", "r"]⟩ = none ∧
    FS.lookup [(⟨false, ["p"]⟩, Node.dir), (⟨false, ["p", "a"]⟩, Node.dir)]
        (((⟨false, ["p"]⟩ : RPath).append ["a"]).append []) =
      FS.lookup
        [(⟨false, ["p"]⟩, Node.dir), (⟨false, ["p", "r"]⟩, Node.dir),
         (⟨false, ["p", "r", "a"]⟩, Node.dir)]
        (((⟨false, ["p", "r"]⟩ : RPath).append ["a"]).append []) := by
  have h := (c4_reconciler_branches
    [(⟨false, ["p"]⟩, Node.dir), (⟨false, ["p", "r"]⟩, Node.dir),
     (⟨false, ["p", "r", "a"]⟩, Node.dir)]
    [(⟨false, ["p"]⟩, Node.dir), (⟨false, ["p", "a"]⟩, Node.dir)]
    ⟨false, ["p", "r"]⟩ ⟨false, ["p"]⟩ "z" false rfl
    (by unfold FS.Nodup; decide)).1 rfl
  exact ⟨h.1, h.2.1, h.2.2 "a" Node.dir rfl []⟩

/-- C3 (amended): for a ZIP archive, a run with no errors reports the total
entry count `N`; for a RAR archive, the run reports the number of
file-flagged entries only, and a skipped non-file header leaves the
filesystem exactly as it was (it creates no object). -/
theorem c3_reported_counts :
    (∀ (es : List ZipEntry) (pwd : Option (List Nat)) (dest : RPath)
        (enc : Encoding) (fs fs' : FS) (n : Nat),
      unzip es pwd dest enc fs = (fs', .ok n) → n = es.length) ∧
    (∀ (es : List RarEntry) (dest : RPath) (fs fs' : FS) (n : Nat),
      unrar es dest fs = (fs', .ok n) →
      n = List.countP (fun e => e.is_file) es) ∧
    (∀ (e : RarEntry) (dest : RPath) (fs : FS), e.is_file = false →
      rarStep dest fs e = .ok fs) := by
  refine ⟨?_, ?_, fun e dest fs h => rarStep_skip h⟩
  · intro es pwd dest enc fs fs' n h
    unfold unzip at h
    split at h
    · obtain ⟨-, h2⟩ := Prod.mk.injEq .. ▸ h
      exact (Except.ok.inj h2).symm
    · obtain ⟨-, h2⟩ := Prod.mk.injEq .. ▸ h
      exact absurd h2 (by simp)
  · intro es dest fs fs' n h
    simpa using unrarLoop_ok_count dest es fs fs' 0 n h

/-- Counterexample to C3 as stated: a RAR archive with a single directory
entry has `N = 1`, but the run reports `0` and creates no filesystem
object. -/
theorem c3_rar_directory_entry_counterexample :
    unrar [⟨"d", false, []⟩] ⟨false, ["dest"]⟩ [] = ([], .ok 0) ∧
    [(⟨"d", false, []⟩ : RarEntry)].length = 1 ∧
    FS.lookup [] ((⟨false, ["dest"]⟩ : RPath).join (parsePath "d")) = none :=
  ⟨rfl, rfl, rfl⟩

/-- Witness for `c3_reported_counts`: a one-entry ZIP run reports 1, and a
RAR run over one directory entry and one file entry reports 1. -/
theorem c3_reported_counts_witness :
    (1 : Nat) = [(⟨asciiBytes "f", [7], none, none⟩ : ZipEntry)].length ∧
    (1 : Nat) = List.countP (fun e => e.is_file)
      [(⟨"d", false, []⟩ : RarEntry), ⟨"f", true, [1]⟩] :=
  ⟨c3_reported_counts.1 [⟨asciiBytes "f", [7], none, none⟩] none
      ⟨false, ["out"]⟩ asciiEncoding []
      [(⟨false, ["out", "f"]⟩, Node.file [7]), (⟨false, ["out"]⟩, Node.dir)]
      1 rfl,
    c3_reported_counts.2.1 [⟨"d", false, []⟩, ⟨"f", true, [1]⟩]
      ⟨false, ["out"]⟩ []
      [(⟨false, ["out", "f"]⟩, Node.file [1]), (⟨false, ["out"]⟩, Node.dir)]
      1 rfl⟩

/-- C6: when the supplied password does not decrypt an encrypted entry, the
run aborts at that entry with `InvalidPassword`: the filesystem is exactly
the state after the preceding entries, the remaining entries (`rest`,
universally quantified) are never processed, and no count is reported, so
the summary line is never printed. -/
theorem c6_wrong_password_aborts
    (pre rest : List ZipEntry) (e : ZipEntry) (req pwd : List Nat)
    (dest : RPath) (enc : Encoding) (fs fsPre : FS)
    (hpre : unzipLoop (some pwd) dest enc pre fs = (fsPre, none))
    (henc : e.encryptedWith = some req) (hwrong : req ≠ pwd) :
    unzip (pre ++ e :: rest) (some pwd) dest enc fs =
      (fsPre, .error .invalidPassword) ∧
    ∀ n : Nat,
      (unzip (pre ++ e :: rest) (some pwd) dest enc fs).2 ≠ .ok n := by
  have hstep : unzipLoop (some pwd) dest enc (pre ++ e :: rest) fs =
      (fsPre, some .invalidPassword) := by
    rw [unzipLoop_append, hpre]
    simp [unzipLoop, getEntry, henc, hwrong]
  exact ⟨by simp [unzip, hstep], fun n => by simp [unzip, hstep]⟩

/-- Witness for `c6_wrong_password_aborts`: a wrong password on the first
(encrypted) entry aborts before the second entry, leaving the filesystem
empty. -/
theorem c6_wrong_password_aborts_witness :
    unzip [⟨asciiBytes "x", [], none, some (asciiBytes "secret")⟩,
           ⟨asciiBytes "y", [2], none, none⟩]
        (some (asciiBytes "wrong")) ⟨false, ["out"]⟩ asciiEncoding [] =
      ([], .error .invalidPassword) :=
  (c6_wrong_password_aborts [] [⟨asciiBytes "y", [2], none, none⟩]
    ⟨asciiBytes "x", [], none, some (asciiBytes "secret")⟩
    (asciiBytes "secret") (asciiBytes "wrong") ⟨false, ["out"]⟩
    asciiEncoding [] [] rfl rfl (by decide)).1

/-- C7: an entry whose raw name bytes do not decode cleanly under the
selected encoding aborts the run at that entry with an `InvalidData` I/O
error: the filesystem is the state after the preceding entries, the
remaining entries are never processed, and no per-entry skip occurs. -/
theorem c7_undecodable_name_aborts
    (pre rest : List ZipEntry) (e : ZipEntry) (pwd : Option (List Nat))
    (dest : RPath) (enc : Encoding) (fs fsPre : FS)
    (hpre : unzipLoop pwd dest enc pre fs = (fsPre, none))
    (hget : getEntry e pwd = .ok e)
    (hdec : (enc.decode e.nameRaw).2 = true) :
    unzip (pre ++ e :: rest) pwd dest enc fs =
      (fsPre, .error (Error.io .invalidData)) ∧
    ∀ n : Nat, (unzip (pre ++ e :: rest) pwd dest enc fs).2 ≠ .ok n := by
  have hstep : unzipLoop pwd dest enc (pre ++ e :: rest) fs =
      (fsPre, some (Error.io .invalidData)) := by
    rw [unzipLoop_append, hpre]
    simp [unzipLoop, hget, inflate_decode_error hdec]
  exact ⟨by simp [unzip, hstep], fun n => by simp [unzip, hstep]⟩

/-- Witness for `c7_undecodable_name_aborts`: a name byte of 200 does not
decode under the ASCII model encoding, and the run aborts before the
following entry. -/
theorem c7_undecodable_name_aborts_witness :
    unzip [⟨[200], [], none, none⟩, ⟨asciiBytes "y", [2], none, none⟩]
        none ⟨false, ["out"]⟩ asciiEncoding [] =
      ([], .error (Error.io .invalidData)) :=
  (c7_undecodable_name_aborts [] [⟨asciiBytes "y", [2], none, none⟩]
    ⟨[200], [], none, none⟩ none ⟨false, ["out"]⟩ asciiEncoding [] []
    rfl rfl rfl).1

/-- C8 (amended): for ZIP, a successfully inflated entry whose raw name ends
with `/` leaves a directory at its resolved path and any other entry leaves
a regular file with the entry's bytes; for RAR, a directory header is
skipped and materializes nothing, while a file header materializes a regular
file at its resolved path. -/
theorem c8_entry_kind_amended :
    (∀ (e : ZipEntry) (dest : RPath) (enc : Encoding) (fs fs' : FS) (p : RPath),
      inflate e dest enc fs = .ok (p, fs') → p.components ≠ [] →
      (nameEndsWithSlash e.nameRaw = true → FS.lookup fs' p = some Node.dir) ∧
      (nameEndsWithSlash e.nameRaw = false →
        FS.lookup fs' p = some (Node.file e.content))) ∧
    (∀ (re : RarEntry) (dest : RPath) (fs : FS), re.is_file = false →
      rarStep dest fs re = .ok fs) ∧
    (∀ (re : RarEntry) (dest : RPath) (fs fs' : FS), re.is_file = true →
      rarStep dest fs re = .ok fs' →
      FS.lookup fs' (dest.join (parsePath re.filename)) =
        some (Node.file re.data)) := by
  refine ⟨?_, fun re dest fs h => rarStep_skip h,
    fun re dest fs fs' hf h => rarStep_file_ok hf h⟩
  intro e dest enc fs fs' p h hne
  obtain ⟨-, -, hbr⟩ := inflate_ok_parts h
  constructor
  · intro hsl
    rcases hbr with ⟨-, hcda⟩ | ⟨hf, -⟩
    · exact create_dir_all_ok_lookup hcda hne
    · rw [hsl] at hf
      exact absurd hf (by simp)
  · intro hsl
    rcases hbr with ⟨ht, -⟩ | ⟨-, fs₁, hwf⟩
    · rw [hsl] at ht
      exact absurd ht (by simp)
    · rw [write_file_ok hwf]
      exact lookup_set_self fs₁ _ _

/-- Counterexample to C8 as stated: a RAR directory entry whose name ends in
a path separator materializes nothing at all — the claim says it always
yields a directory. -/
theorem c8_rar_directory_skipped_counterexample :
    ("d/" : String).data.getLast? = some '/' ∧
    unrar [⟨"d/", false, [1]⟩] ⟨false, ["dest"]⟩
        [(⟨false, ["dest"]⟩, Node.dir)] =
      ([(⟨false, ["dest"]⟩, Node.dir)], .ok 0) ∧
    FS.lookup [(⟨false, ["dest"]⟩, Node.dir)]
        ((⟨false, ["dest"]⟩ : RPath).join (parsePath "d/")) = none :=
  ⟨rfl, rfl, rfl⟩

/-- Witness for `c8_entry_kind_amended`: a trailing-slash ZIP entry yields a
directory, and a RAR directory header is skipped. -/
theorem c8_entry_kind_amended_witness :
    FS.lookup [(⟨false, ["out", "d"]⟩, Node.dir), (⟨false, ["out"]⟩, Node.dir)]
        ⟨false, ["out", "d"]⟩ = some Node.dir ∧
    rarStep ⟨false, ["out"]⟩ [] ⟨"d", false, []⟩ = .ok [] :=
  ⟨(c8_entry_kind_amended.1 ⟨asciiBytes "d/", [], none, none⟩ ⟨false, ["out"]⟩
      asciiEncoding []
      [(⟨false, ["out", "d"]⟩, Node.dir), (⟨false, ["out"]⟩, Node.dir)]
      ⟨false, ["out", "d"]⟩ rfl (by decide)).1 rfl,
    c8_entry_kind_amended.2.1 ⟨"d", false, []⟩ ⟨false, ["out"]⟩ [] rfl⟩

theorem takeWhile_take_dot : ∀ (rev : List Char),
    ¬((rev.takeWhile (fun c => decide (c ≠ '.'))).length = rev.length) →
    rev.take ((rev.takeWhile (fun c => decide (c ≠ '.'))).length + 1) =
      rev.takeWhile (fun c => decide (c ≠ '.')) ++ ['.'] := by
  intro rev
  induction rev with
  | nil => intro h; simp at h
  | cons ch tl ih =>
    intro h
    by_cases hc : ch = '.'
    · subst hc
      simp [List.takeWhile_cons]
    · have hd : (decide (ch ≠ '.')) = true := by simp [hc]
      simp only [List.takeWhile_cons, hd, if_true, List.length_cons] at h ⊢
      rw [List.take_succ_cons, List.cons_append]
      have h' : ¬((tl.takeWhile (fun c => decide (c ≠ '.'))).length = tl.length) :=
        fun hx => h (by rw [hx])
      rw [ih h']

/-- C2 (amended, spec-modelled): the format dispatch selects RAR exactly
when `Path::extension` of the archive path is `rar`, and ZIP otherwise; an
extension of `rar` does mean the file name ends in the four characters
`.rar`, but the converse fails (for example for a bare dotfile named
`.rar`), so extension-equality, not string-suffix, is the dispatch
criterion. -/
theorem c2_extension_dispatch :
    (∀ p : RPath, file_extension p = some "rar" → selectFormat p = .rar) ∧
    (∀ p : RPath, file_extension p ≠ some "rar" → selectFormat p = .zip) ∧
    (∀ f e : String, extOf f = some e →
      f.data.reverse.take (e.data.length + 1) = e.data.reverse ++ ['.']) := by
  refine ⟨?_, ?_, ?_⟩
  · intro p h
    simp [selectFormat, h]
  · intro p h
    simp [selectFormat, h]
  · intro f e h
    simp only [extOf] at h
    split at h
    · exact absurd h (by simp)
    · split at h
      · exact absurd h (by simp)
      · rename_i h1 h2
        obtain rfl :
            e = String.mk ((f.data.reverse.takeWhile
              (fun c => decide (c ≠ '.'))).reverse) :=
          (Option.some.inj h).symm
        simp only [List.length_reverse, List.reverse_reverse]
        exact takeWhile_take_dot _ h1

/-- Counterexample to C2 as stated: the path `.rar` ends in the characters
`.rar`, yet it has no extension (`Path::extension` of a bare dotfile is
`None`), so the ZIP reader is selected, not the RAR reader. -/
theorem c2_dotfile_rar_counterexample :
    (".rar" : String).data = [] ++ ('.' :: ("rar" : String).data) ∧
    file_extension (parsePath ".rar") = none ∧
    selectFormatStr ".rar" = ArchiveFormat.zip :=
  ⟨rfl, rfl, rfl⟩

/-- Witness for `c2_extension_dispatch`: `a/b.rar` selects the RAR reader,
`b.zip` selects the ZIP reader, and an extension of `rar` forces the name to
end in `.rar`. -/
theorem c2_extension_dispatch_witness :
    selectFormat (parsePath "a/b.rar") = ArchiveFormat.rar ∧
    selectFormat (parsePath "b.zip") = ArchiveFormat.zip ∧
    ("a.rar" : String).data.reverse.take (("rar" : String).data.length + 1) =
      ("rar" : String).data.reverse ++ ['.'] :=
  ⟨c2_extension_dispatch.1 (parsePath "a/b.rar") rfl,
    c2_extension_dispatch.2.1 (parsePath "b.zip") (by decide),
    c2_extension_dispatch.2.2 "a.rar" "rar" rfl⟩

end Runzip
